import Mathlib

/-!
Verification of the functorial-construction registry of
`src/src/sage/categories/cartesian_product.py`.

The generic engine (`covariant_functorial_construction.py`) is not part of
`src/`; only its instantiation for Cartesian products is.  The engine is
therefore modelled from the spec (§3–§4 of `spec.md`), while the pieces that
do appear in the source (the `cartesian_product` descriptor data, the
idempotent `CartesianProducts` method and `base_ring` of
`CartesianProductsCategory`) are embedded from the source directly.
-/

namespace FunctorialConstruction

/-- Modelled from the spec (§3 "Construction Descriptor"): an immutable record
identifying a named functorial construction. -/
structure Descriptor where
  name : String
  categorySlotName : String
  displaySymbol : String
deriving DecidableEq, Repr

/-- Embedded from the source (`CartesianProductFunctor`, lines 93–95):
`_functor_name = "cartesian_product"`, `_functor_category = "CartesianProducts"`,
`symbol = " (+) "`. -/
def cartesian_product : Descriptor :=
  ⟨"cartesian_product", "CartesianProducts", " (+) "⟩

/-- Modelled from the spec (§3 "Category" and "Derived Category"): a category is
either a base category with an opaque identity, an ordered list of immediate
super-categories and a table of bespoke nested constructions (slot name ↦ extra
super-categories contributed by the nested class), or a derived category tagged
with its provenance (base category, descriptor) and its computed
super-categories. -/
inductive Cat where
  | mk (id : Nat) (supers : List Cat) (nested : List (String × List Cat))
  | derived (base : Cat) (descr : Descriptor) (supers : List Cat)

mutual

/-- Structural equality test on categories (identities are opaque and two
categories are "the same" iff they agree, spec §3, so the embedding uses the
category value itself as its identity). -/
def catBeq : Cat → Cat → Bool
  | .mk n s ns, .mk n' s' ns' => n == n' && catListBeq s s' && catNestBeq ns ns'
  | .derived b d s, .derived b' d' s' => catBeq b b' && d == d' && catListBeq s s'
  | _, _ => false

def catListBeq : List Cat → List Cat → Bool
  | [], [] => true
  | x :: xs, y :: ys => catBeq x y && catListBeq xs ys
  | _, _ => false

def catNestBeq : List (String × List Cat) → List (String × List Cat) → Bool
  | [], [] => true
  | (k, v) :: xs, (k', v') :: ys => k == k' && catListBeq v v' && catNestBeq xs ys
  | _, _ => false

end

mutual

theorem catBeq_iff : ∀ (a b : Cat), catBeq a b = true ↔ a = b
  | .mk n s ns, .mk n' s' ns' => by
      simp [catBeq, catListBeq_iff s s', catNestBeq_iff ns ns', and_assoc]
  | .mk _ _ _, .derived _ _ _ => by simp [catBeq]
  | .derived _ _ _, .mk _ _ _ => by simp [catBeq]
  | .derived b d s, .derived b' d' s' => by
      simp [catBeq, catBeq_iff b b', catListBeq_iff s s', and_assoc]

theorem catListBeq_iff : ∀ (l l' : List Cat), catListBeq l l' = true ↔ l = l'
  | [], [] => by simp [catListBeq]
  | [], _ :: _ => by simp [catListBeq]
  | _ :: _, [] => by simp [catListBeq]
  | x :: xs, y :: ys => by
      simp [catListBeq, catBeq_iff x y, catListBeq_iff xs ys]

theorem catNestBeq_iff :
    ∀ (l l' : List (String × List Cat)), catNestBeq l l' = true ↔ l = l'
  | [], [] => by simp [catNestBeq]
  | [], _ :: _ => by simp [catNestBeq]
  | _ :: _, [] => by simp [catNestBeq]
  | (k, v) :: xs, (k', v') :: ys => by
      simp [catNestBeq, catListBeq_iff v v', catNestBeq_iff xs ys]

end

instance : DecidableEq Cat := fun a b => decidable_of_iff _ (catBeq_iff a b)

/-- The ordered immediate super-categories of a category (spec §3). -/
def supersOf : Cat → List Cat
  | .mk _ s _ => s
  | .derived _ _ s => s

/-- The provenance descriptor, when the category is a derived category. -/
def descrOf : Cat → Option Descriptor
  | .mk _ _ _ => none
  | .derived _ d _ => some d

/-- Bespoke nested-construction lookup (spec §4.1 step 3): the extra
super-categories the base category contributes for a construction slot. -/
def nestedLookup (C : Cat) (slot : String) : Option (List Cat) :=
  match C with
  | .derived _ _ _ => none
  | .mk _ _ ns => (ns.find? (fun p => p.1 = slot)).map (fun p => p.2)

theorem sizeOf_supersOf_lt (C : Cat) : sizeOf (supersOf C) < sizeOf C := by
  cases C <;> first
    | (simp [supersOf]; omega)
    | simp [supersOf]

/-- Order-preserving duplicate removal, keeping the first occurrence
(spec §4.1 step 4: "preserving order and removing duplicates"). -/
def removeDups : List Cat → List Cat
  | [] => []
  | x :: xs => if x ∈ removeDups xs then removeDups xs else x :: removeDups xs

theorem mem_removeDups : ∀ (a : Cat) (l : List Cat), a ∈ removeDups l ↔ a ∈ l
  | _, [] => by simp [removeDups]
  | a, x :: xs => by
      by_cases h : x ∈ removeDups xs
      · have hx : x ∈ xs := (mem_removeDups x xs).mp h
        rw [removeDups, if_pos h, mem_removeDups a xs]
        constructor
        · exact fun h2 => List.mem_cons_of_mem x h2
        · intro h2
          rcases List.mem_cons.mp h2 with rfl | h3
          · exact hx
          · exact h3
      · rw [removeDups, if_neg h]
        simp [mem_removeDups a xs]

mutual

/-- Modelled from the spec (§4.1, steps 1, 3, 4): the cache-free core of the
Derived Category Synthesizer.  Step 1 is the idempotence check; step 3 uses the
bespoke nested-construction entry, whose extra super-categories augment (per the
§3 Derived Category invariant: "possibly augmented by a bespoke refinement") the
generically synthesized super-categories; step 4 is the generic synthesis.
The cache (steps 2 and 5) is handled by `synthesize` below and proven not to
change the result. -/
def synth0 (d : Descriptor) (C : Cat) : Cat :=
  if descrOf C = some d then C
  else
    match nestedLookup C d.categorySlotName with
    | some extras => .derived C d (removeDups (extras ++ synthList0 d (supersOf C)))
    | none => .derived C d (removeDups (synthList0 d (supersOf C)))
termination_by sizeOf C
decreasing_by
  all_goals simp_wf
  all_goals exact sizeOf_supersOf_lt C

/-- The synthesizer `synth0` applied pointwise to a list of categories. -/
def synthList0 (d : Descriptor) : List Cat → List Cat
  | [] => []
  | x :: xs => synth0 d x :: synthList0 d xs
termination_by l => sizeOf l
decreasing_by
  all_goals simp_wf
  all_goals omega

end

theorem synthList0_eq_map (d : Descriptor) :
    ∀ l : List Cat, synthList0 d l = l.map (synth0 d)
  | [] => by simp [synthList0]
  | x :: xs => by simp [synthList0, synthList0_eq_map d xs]

/-- Modelled from the spec (§3 "Cache"): the Construction Cache maps
(base-category identity, descriptor name) to the derived category.  Identities
are opaque and in bijection with categories (spec §3: "two categories are the
same iff identity matches"), so the embedding keys directly by the category. -/
abbrev Cache : Type := List ((Cat × String) × Cat)

/-- Cache lookup (spec §4.2 `get`). -/
def cacheFind (k : Cat × String) : Cache → Option Cat
  | [] => none
  | (k', v) :: rest => if k' = k then some v else cacheFind k rest

mutual

/-- Modelled from the spec (§4.1): the Derived Category Synthesizer with the
Construction Cache threaded explicitly.  Step 1: idempotence check; step 2:
cache check; steps 3/4: bespoke or generic synthesis of the super-categories;
step 5: insert the result into the cache before returning. -/
def synthesize (d : Descriptor) (cache : Cache) (C : Cat) : Cache × Cat :=
  if descrOf C = some d then (cache, C)
  else
    match cacheFind (C, d.name) cache with
    | some v => (cache, v)
    | none =>
      match nestedLookup C d.categorySlotName with
      | some extras =>
        (((C, d.name),
            Cat.derived C d
              (removeDups (extras ++ (synthSupers d cache (supersOf C)).2)))
          :: (synthSupers d cache (supersOf C)).1,
         Cat.derived C d
           (removeDups (extras ++ (synthSupers d cache (supersOf C)).2)))
      | none =>
        (((C, d.name),
            Cat.derived C d (removeDups ((synthSupers d cache (supersOf C)).2)))
          :: (synthSupers d cache (supersOf C)).1,
         Cat.derived C d (removeDups ((synthSupers d cache (supersOf C)).2)))
termination_by sizeOf C
decreasing_by
  all_goals simp_wf
  all_goals exact sizeOf_supersOf_lt C

/-- Synthesize each category of a list in order, threading the cache. -/
def synthSupers (d : Descriptor) (cache : Cache) : List Cat → Cache × List Cat
  | [] => (cache, [])
  | x :: xs =>
    ((synthSupers d (synthesize d cache x).1 xs).1,
     (synthesize d cache x).2 :: (synthSupers d (synthesize d cache x).1 xs).2)
termination_by l => sizeOf l
decreasing_by
  all_goals simp_wf
  all_goals omega

end

/-- A cache is coherent for descriptor `d` when every entry under `d`'s name
stores exactly the category the Synthesizer would produce (true of the empty
cache, and preserved by `synthesize`, which is the only writer). -/
def WFCache (d : Descriptor) (cache : Cache) : Prop :=
  ∀ C v, cacheFind (C, d.name) cache = some v → v = synth0 d C

theorem wfcache_nil (d : Descriptor) : WFCache d ([] : Cache) := by
  intro C v h
  simp [cacheFind] at h

theorem synth0_of_descr {d : Descriptor} {C : Cat} (hd : descrOf C = some d) :
    synth0 d C = C := by
  rw [synth0, if_pos hd]

theorem synth0_shape {d : Descriptor} {C : Cat} (hd : descrOf C ≠ some d) :
    ∃ s, synth0 d C = Cat.derived C d s := by
  rw [synth0, if_neg hd]
  cases hnl : nestedLookup C d.categorySlotName with
  | some extras => exact ⟨_, rfl⟩
  | none => exact ⟨_, rfl⟩

/-- Re-deriving the Synthesizer's own output along the same descriptor is the
identity (the cache-free core of spec §8 "Idempotence"). -/
theorem synth0_idem (d : Descriptor) (C : Cat) :
    synth0 d (synth0 d C) = synth0 d C := by
  by_cases hd : descrOf C = some d
  · rw [synth0_of_descr hd, synth0_of_descr hd]
  · obtain ⟨s, hs⟩ := synth0_shape hd
    rw [hs]
    exact synth0_of_descr (by simp [descrOf])

/-- Reachability `reach A B` : `B` is reachable from `A` along the
`superCategories` relation, i.e. `A` is a sub-category of `B` (spec §3, §8
"Covariance"). -/
inductive reach : Cat → Cat → Prop where
  | refl (C : Cat) : reach C C
  | step {A S B : Cat} : S ∈ supersOf A → reach S B → reach A B

theorem reach_trans {A B C : Cat} (h1 : reach A B) (h2 : reach B C) :
    reach A C := by
  induction h1 with
  | refl => exact h2
  | step hS _ ih => exact reach.step hS (ih h2)

theorem sizeOf_lt_of_mem_supers {S A : Cat} (h : S ∈ supersOf A) :
    sizeOf S < sizeOf A :=
  lt_trans (List.sizeOf_lt_of_mem h) (sizeOf_supersOf_lt A)

mutual

/-- The cache is transparent: run with any coherent cache, the Synthesizer
returns exactly the cache-free result, and leaves the cache coherent. -/
theorem synthesize_sound (d : Descriptor) (cache : Cache) (C : Cat)
    (h : WFCache d cache) :
    (synthesize d cache C).2 = synth0 d C ∧ WFCache d (synthesize d cache C).1 := by
  by_cases hd : descrOf C = some d
  · rw [synthesize, synth0, if_pos hd, if_pos hd]
    exact ⟨rfl, h⟩
  · cases hc : cacheFind (C, d.name) cache with
    | some v =>
        rw [synthesize, if_neg hd, hc]
        exact ⟨h C v hc, h⟩
    | none =>
        obtain ⟨h1, h2⟩ := synthSupers_sound d cache (supersOf C) h
        have key : ∀ r : Cat, r = synth0 d C →
            WFCache d (((C, d.name), r) :: (synthSupers d cache (supersOf C)).1) := by
          intro r hr C' v hfind
          rw [cacheFind] at hfind
          by_cases heq : ((C, d.name) : Cat × String) = (C', d.name)
          · have hC : C = C' := congrArg Prod.fst heq
            rw [if_pos heq] at hfind
            cases hfind
            rw [hr, hC]
          · rw [if_neg heq] at hfind
            exact h2 C' v hfind
        cases hnl : nestedLookup C d.categorySlotName with
        | some extras =>
            have hr : Cat.derived C d
                (removeDups (extras ++ (synthSupers d cache (supersOf C)).2)) =
                synth0 d C := by
              rw [synth0, if_neg hd, hnl, h1]
            rw [synthesize, if_neg hd, hc, hnl]
            exact ⟨hr, key _ hr⟩
        | none =>
            have hr : Cat.derived C d
                (removeDups ((synthSupers d cache (supersOf C)).2)) =
                synth0 d C := by
              rw [synth0, if_neg hd, hnl, h1]
            rw [synthesize, if_neg hd, hc, hnl]
            exact ⟨hr, key _ hr⟩
termination_by sizeOf C
decreasing_by
  all_goals simp_wf
  all_goals exact sizeOf_supersOf_lt C

theorem synthSupers_sound (d : Descriptor) (cache : Cache) (l : List Cat)
    (h : WFCache d cache) :
    (synthSupers d cache l).2 = synthList0 d l ∧
      WFCache d (synthSupers d cache l).1 := by
  cases l with
  | nil => rw [synthSupers, synthList0]; exact ⟨rfl, h⟩
  | cons x xs =>
      obtain ⟨p1, p2⟩ := synthesize_sound d cache x h
      obtain ⟨q1, q2⟩ := synthSupers_sound d (synthesize d cache x).1 xs p2
      rw [synthSupers, synthList0]
      exact ⟨by rw [q1, p1], q2⟩
termination_by sizeOf l
decreasing_by
  all_goals simp_wf
  all_goals omega

end

/-- Well-formedness of a category for covariance under descriptor `d`
(spec §3 invariants).  Base categories are recursively well formed and every
bespoke extra super-category contributed for `d`'s slot is the category itself
or one of its reachable super-categories (the pattern of the source's nested
classes: "Cartesian product of monoids is again a monoid").  A derived category
with descriptor `d` is exactly the Synthesizer's output on its base (the §3
Derived Category invariant); a derived category under another descriptor has
well-formed super-categories. -/
inductive GoodCat (d : Descriptor) : Cat → Prop where
  | base (n : Nat) (sup : List Cat) (nst : List (String × List Cat))
      (hsup : ∀ S ∈ sup, GoodCat d S)
      (hnst : ∀ p ∈ nst, ∀ E ∈ p.2, GoodCat d E)
      (hext : ∀ ex, nestedLookup (Cat.mk n sup nst) d.categorySlotName = some ex →
        ∀ E ∈ ex, E = Cat.mk n sup nst ∨ reach (Cat.mk n sup nst) E) :
      GoodCat d (Cat.mk n sup nst)
  | derived_eq (b : Cat) (s : List Cat)
      (hb : GoodCat d b)
      (hbd : descrOf b ≠ some d)
      (he : Cat.derived b d s = synth0 d b) :
      GoodCat d (Cat.derived b d s)
  | derived_ne (b : Cat) (d' : Descriptor) (s : List Cat)
      (hne : d' ≠ d)
      (hb : GoodCat d b)
      (hsup : ∀ S ∈ s, GoodCat d S) :
      GoodCat d (Cat.derived b d' s)

theorem good_synth0 {d : Descriptor} {C : Cat} (h : GoodCat d C) :
    GoodCat d (synth0 d C) := by
  by_cases hd : descrOf C = some d
  · rw [synth0_of_descr hd]; exact h
  · obtain ⟨s, hs⟩ := synth0_shape hd
    rw [hs]
    exact GoodCat.derived_eq C s h hd hs.symm

theorem nestedLookup_extras {C : Cat} {slot : String} {ex : List Cat}
    (h : nestedLookup C slot = some ex) :
    ∃ n sup nst, C = Cat.mk n sup nst ∧ ∃ k, (k, ex) ∈ nst := by
  cases C with
  | derived b d s => simp [nestedLookup] at h
  | mk n sup nst =>
      refine ⟨n, sup, nst, rfl, ?_⟩
      simp only [nestedLookup, Option.map_eq_some'] at h
      obtain ⟨p, hp, hpe⟩ := h
      refine ⟨p.1, ?_⟩
      rw [← hpe]
      simpa using List.mem_of_find?_eq_some hp

theorem good_mem_supers (d : Descriptor) :
    ∀ (A S : Cat), GoodCat d A → S ∈ supersOf A → GoodCat d S
  | .mk _ _ _, S, hA, hS => by
      cases hA with
      | base n sup nst hsup hnst hext => exact hsup S hS
  | .derived b d' s, S, hA, hS => by
      cases hA with
      | derived_ne b d' s hne hb hsup => exact hsup S hS
      | derived_eq b s hb hbd he =>
      rw [synth0, if_neg hbd] at he
      cases hnl : nestedLookup b d.categorySlotName with
      | some ex =>
          rw [hnl] at he
          have hs : s = removeDups (ex ++ synthList0 d (supersOf b)) := by
            injection he
          rw [supersOf, hs] at hS
          rcases List.mem_append.mp ((mem_removeDups _ _).mp hS) with hSex | hSmap
          · obtain ⟨n, sup, nst, hbm, k, hk⟩ := nestedLookup_extras hnl
            cases hb with
            | base n2 sup2 nst2 hsup2 hnst2 hext2 =>
                cases hbm
                exact hnst2 (k, ex) hk S hSex
            | derived_eq b2 s2 hb2 hbd2 he2 => simp at hbm
            | derived_ne b2 d2 s2 hne2 hb2 hsup2 => simp at hbm
          · rw [synthList0_eq_map] at hSmap
            obtain ⟨p, hp, hpe⟩ := List.mem_map.mp hSmap
            have hgp : GoodCat d p := good_mem_supers d b p hb hp
            rw [← hpe]
            exact good_synth0 hgp
      | none =>
          rw [hnl] at he
          have hs : s = removeDups (synthList0 d (supersOf b)) := by
            injection he
          rw [supersOf, hs] at hS
          rw [synthList0_eq_map] at hS
          obtain ⟨p, hp, hpe⟩ := List.mem_map.mp ((mem_removeDups _ _).mp hS)
          have hgp : GoodCat d p := good_mem_supers d b p hb hp
          rw [← hpe]
          exact good_synth0 hgp
termination_by A => sizeOf A
decreasing_by
  all_goals simp_wf
  all_goals omega

set_option maxRecDepth 4096 in
/-- Covariance of the Synthesizer over well-formed categories: one reachability
step lifted through `synth0`, proved by strong induction together with the
multi-step closure. -/
theorem cov_aux (d : Descriptor) :
    ∀ (A B : Cat), GoodCat d A → reach A B →
      reach (synth0 d A) (synth0 d B) := by
  intro A B hA hr
  cases hr with
  | refl => exact reach.refl _
  | step hS hSB =>
      rename_i S
      have hgS : GoodCat d S := good_mem_supers d A S hA hS
      have ih : reach (synth0 d S) (synth0 d B) :=
        cov_aux d S B hgS hSB
      refine reach_trans ?_ ih
      by_cases hd : descrOf A = some d
      · cases A with
        | mk n sup nst => simp [descrOf] at hd
        | derived b d' s =>
            have hd' : d' = d := by
              simpa [descrOf] using hd
            subst d'
            rw [synth0_of_descr hd]
            cases hA with
            | derived_ne b2 d2 s2 hne hb hsup => exact absurd rfl hne
            | derived_eq b2 s2 hb hbd he =>
                have hSs : S ∈ s := by rwa [supersOf] at hS
                have he2 := he
                rw [synth0, if_neg hbd] at he2
                cases hnl : nestedLookup b d.categorySlotName with
                | some ex =>
                    rw [hnl] at he2
                    have hs : s = removeDups (ex ++ synthList0 d (supersOf b)) := by
                      injection he2
                    rcases List.mem_append.mp
                        ((mem_removeDups _ _).mp (hs ▸ hSs)) with hSex | hSmap
                    · obtain ⟨n2, sup2, nst2, hbm, k, hk⟩ := nestedLookup_extras hnl
                      have hbk := hb
                      subst hbm
                      cases hb with
                      | base _ _ _ hsup3 hnst3 hext3 =>
                          rcases hext3 ex hnl S hSex with rfl | hrS
                          · rw [← he]
                            exact reach.refl _
                          · have hcov :=
                              cov_aux d (Cat.mk n2 sup2 nst2) S hbk hrS
                            rw [← he] at hcov
                            exact hcov
                    · rw [synthList0_eq_map] at hSmap
                      obtain ⟨p, hp, hpe⟩ := List.mem_map.mp hSmap
                      have hSfix : synth0 d S = S := by
                        rw [← hpe, synth0_idem]
                      rw [hSfix]
                      exact reach.step
                        (show S ∈ supersOf (Cat.derived b d s) from hSs)
                        (reach.refl S)
                | none =>
                    rw [hnl] at he2
                    have hs : s = removeDups (synthList0 d (supersOf b)) := by
                      injection he2
                    have hSmap : S ∈ List.map (synth0 d) (supersOf b) := by
                      have := (mem_removeDups _ _).mp (hs ▸ hSs)
                      rwa [synthList0_eq_map] at this
                    obtain ⟨p, hp, hpe⟩ := List.mem_map.mp hSmap
                    have hSfix : synth0 d S = S := by
                      rw [← hpe, synth0_idem]
                    rw [hSfix]
                    exact reach.step
                      (show S ∈ supersOf (Cat.derived b d s) from hSs)
                      (reach.refl S)
      · cases hnl : nestedLookup A d.categorySlotName with
        | some ex =>
            have hAeq : synth0 d A =
                Cat.derived A d
                  (removeDups (ex ++ synthList0 d (supersOf A))) := by
              rw [synth0, if_neg hd, hnl]
            rw [hAeq]
            refine reach.step ?_ (reach.refl _)
            rw [supersOf]
            refine (mem_removeDups _ _).mpr (List.mem_append.mpr (Or.inr ?_))
            rw [synthList0_eq_map]
            exact List.mem_map_of_mem _ hS
        | none =>
            have hAeq : synth0 d A =
                Cat.derived A d (removeDups (synthList0 d (supersOf A))) := by
              rw [synth0, if_neg hd, hnl]
            rw [hAeq]
            refine reach.step ?_ (reach.refl _)
            rw [supersOf]
            refine (mem_removeDups _ _).mpr ?_
            rw [synthList0_eq_map]
            exact List.mem_map_of_mem _ hS
termination_by A _ => sizeOf A
decreasing_by
  all_goals simp_wf
  · exact sizeOf_lt_of_mem_supers hS
  · subst_vars
    simp
    omega

/-- A free-standing base category with no structure, used as concrete input. -/
def Mex : Cat := Cat.mk 1 [] []

/-- A concrete base category whose bespoke `CartesianProducts` entry declares
the unrelated category `Mex` as an extra super-category. -/
def Cex : Cat := Cat.mk 0 [] [("CartesianProducts", [Mex])]

theorem synthesize_nil_Cex :
    (synthesize cartesian_product [] Cex).2 =
      Cat.derived Cex cartesian_product [Mex] := by
  rw [(synthesize_sound cartesian_product [] Cex (wfcache_nil _)).1]
  rw [synth0, if_neg (by simp [descrOf, Cex])]
  simp [nestedLookup, Cex, cartesian_product, supersOf, synthList0, removeDups]

theorem synthesize_nil_Mex :
    (synthesize cartesian_product [] Mex).2 =
      Cat.derived Mex cartesian_product [] := by
  rw [(synthesize_sound cartesian_product [] Mex (wfcache_nil _)).1]
  rw [synth0, if_neg (by simp [descrOf, Mex])]
  simp [nestedLookup, Mex, cartesian_product, supersOf, synthList0, removeDups]

/-- Claim C1, counterexample: covariance fails as stated.  The system-produced
derived category `A = synthesize(Cex, cartesian_product)` is a sub-category of
`B = Mex` (because `Cex`'s bespoke entry declares the unrelated `Mex` as an
extra super-category, which the spec trusts as authoritative), yet
`synthesize(A, d)` is not a sub-category of `synthesize(B, d)`. -/
theorem claim_C1_counterexample :
    reach ((synthesize cartesian_product [] Cex).2) Mex ∧
      ¬ reach
        ((synthesize cartesian_product []
          ((synthesize cartesian_product [] Cex).2)).2)
        ((synthesize cartesian_product [] Mex).2) := by
  constructor
  · rw [synthesize_nil_Cex]
    exact reach.step (by simp [supersOf]) (reach.refl Mex)
  · rw [synthesize_nil_Cex, synthesize_nil_Mex]
    have hfix : (synthesize cartesian_product []
        (Cat.derived Cex cartesian_product [Mex])).2 =
        Cat.derived Cex cartesian_product [Mex] := by
      rw [synthesize, if_pos (show descrOf (Cat.derived Cex cartesian_product
        [Mex]) = some cartesian_product from rfl)]
    rw [hfix]
    intro h
    rcases h with _ | ⟨hS, hr⟩
    · rw [show supersOf (Cat.derived Cex cartesian_product [Mex]) = [Mex]
        from rfl] at hS
      rcases List.mem_singleton.mp hS with rfl
      rcases hr with _ | ⟨hS2, _⟩
      rw [show supersOf Mex = [] from rfl] at hS2
      exact absurd hS2 (List.not_mem_nil _)

/-- Claim C1 (amended): covariance of synthesize.  For well-formed categories
(spec §3 invariants, `GoodCat`: in particular every bespoke extra
super-category a category declares for the descriptor's slot is the category
itself or one of its reachable super-categories) and any coherent cache, if `B`
is reachable from `A` via `superCategories` then `synthesize(A, d)` is a
sub-category of `synthesize(B, d)`. -/
theorem claim_C1_covariance (d : Descriptor) (cache : Cache) (A B : Cat)
    (hc : WFCache d cache) (hA : GoodCat d A) (hr : reach A B) :
    reach ((synthesize d cache A).2) ((synthesize d cache B).2) := by
  rw [(synthesize_sound d cache A hc).1, (synthesize_sound d cache B hc).1]
  exact cov_aux d A B hA hr

theorem claim_C1_witness :
    reach ((synthesize cartesian_product [] (Cat.mk 0 [Mex] [])).2)
      ((synthesize cartesian_product [] Mex).2) := by
  have hgM : GoodCat cartesian_product Mex := by
    refine GoodCat.base 1 [] [] ?_ ?_ ?_
    · intro S hS; exact absurd hS (List.not_mem_nil _)
    · intro p hp; exact absurd hp (List.not_mem_nil _)
    · intro ex hex; simp [nestedLookup] at hex
  apply claim_C1_covariance cartesian_product [] (Cat.mk 0 [Mex] []) Mex
    (wfcache_nil _)
  · refine GoodCat.base 0 [Mex] [] ?_ ?_ ?_
    · intro S hS
      rcases List.mem_singleton.mp hS with rfl
      exact hgM
    · intro p hp; exact absurd hp (List.not_mem_nil _)
    · intro ex hex; simp [nestedLookup] at hex
  · exact reach.step (show Mex ∈ supersOf (Cat.mk 0 [Mex] []) by
      simp [supersOf]) (reach.refl Mex)

/-- Claim C2: idempotence of synthesize.  Applying `synthesize` to its own
output under the same descriptor returns that category (and cache) unchanged:
the idempotence check of spec §4.1 step 1 short-circuits.  Identity equality of
the spec is modelled as equality of the embedding's values. -/
theorem claim_C2_idempotence (d : Descriptor) (cache : Cache) (C : Cat)
    (hc : WFCache d cache) :
    synthesize d (synthesize d cache C).1 ((synthesize d cache C).2)
      = ((synthesize d cache C).1, (synthesize d cache C).2) := by
  have h1 := (synthesize_sound d cache C hc).1
  have hdr : descrOf ((synthesize d cache C).2) = some d := by
    rw [h1]
    by_cases hd : descrOf C = some d
    · rw [synth0_of_descr hd]; exact hd
    · obtain ⟨s, hs⟩ := synth0_shape hd
      rw [hs]; rfl
  rw [synthesize, if_pos hdr]

theorem claim_C2_witness :
    synthesize cartesian_product (synthesize cartesian_product [] Mex).1
        ((synthesize cartesian_product [] Mex).2)
      = ((synthesize cartesian_product [] Mex).1,
         (synthesize cartesian_product [] Mex).2) :=
  claim_C2_idempotence cartesian_product [] Mex (wfcache_nil _)

/-- Claim C3, counterexample: when the input is already a derived category of
the same descriptor, the idempotence check (spec §4.1 step 1) returns it
without writing the construction cache, so "the first call stores its result
in the construction cache under (C.identity, d.name) before returning" fails
for that input. -/
theorem claim_C3_counterexample :
    (synthesize cartesian_product []
        (Cat.derived Mex cartesian_product [])).2
      = Cat.derived Mex cartesian_product [] ∧
    cacheFind (Cat.derived Mex cartesian_product [], cartesian_product.name)
        ((synthesize cartesian_product []
          (Cat.derived Mex cartesian_product [])).1)
      = none := by
  have hp : synthesize cartesian_product []
      (Cat.derived Mex cartesian_product [])
      = ([], Cat.derived Mex cartesian_product []) := by
    rw [synthesize, if_pos (show descrOf (Cat.derived Mex cartesian_product [])
      = some cartesian_product from rfl)]
  rw [hp]
  exact ⟨rfl, rfl⟩

/-- Claim C3 (amended): cache coherence.  Two sequential `synthesize(C, d)`
calls return the identical object with the cache left unchanged by the second
call, and — unless `C` is itself already a derived category of `d` (returned
unchanged by the idempotence check without touching the cache) — the first
call has stored its result in the cache under `(C.identity, d.name)`. -/
theorem claim_C3_cache_coherence (d : Descriptor) (cache : Cache) (C : Cat) :
    synthesize d (synthesize d cache C).1 C
        = ((synthesize d cache C).1, (synthesize d cache C).2) ∧
      (descrOf C ≠ some d →
        cacheFind (C, d.name) (synthesize d cache C).1
          = some ((synthesize d cache C).2)) := by
  by_cases hd : descrOf C = some d
  · have hp : synthesize d cache C = (cache, C) := by
      rw [synthesize, if_pos hd]
    rw [hp]
    exact ⟨hp, fun hn => absurd hd hn⟩
  · cases hcf : cacheFind (C, d.name) cache with
    | some v =>
        have hp : synthesize d cache C = (cache, v) := by
          rw [synthesize, if_neg hd, hcf]
        rw [hp]
        exact ⟨hp, fun _ => hcf⟩
    | none =>
        cases hnl : nestedLookup C d.categorySlotName with
        | some extras =>
            have hp : synthesize d cache C =
                (((C, d.name),
                    Cat.derived C d (removeDups
                      (extras ++ (synthSupers d cache (supersOf C)).2)))
                  :: (synthSupers d cache (supersOf C)).1,
                 Cat.derived C d (removeDups
                   (extras ++ (synthSupers d cache (supersOf C)).2))) := by
              rw [synthesize, if_neg hd, hcf, hnl]
            have hfind : cacheFind (C, d.name) (synthesize d cache C).1
                = some ((synthesize d cache C).2) := by
              rw [hp, cacheFind, if_pos rfl]
            refine ⟨?_, fun _ => hfind⟩
            rw [synthesize, if_neg hd, hfind, hp]
        | none =>
            have hp : synthesize d cache C =
                (((C, d.name),
                    Cat.derived C d (removeDups
                      ((synthSupers d cache (supersOf C)).2)))
                  :: (synthSupers d cache (supersOf C)).1,
                 Cat.derived C d (removeDups
                   ((synthSupers d cache (supersOf C)).2))) := by
              rw [synthesize, if_neg hd, hcf, hnl]
            have hfind : cacheFind (C, d.name) (synthesize d cache C).1
                = some ((synthesize d cache C).2) := by
              rw [hp, cacheFind, if_pos rfl]
            refine ⟨?_, fun _ => hfind⟩
            rw [synthesize, if_neg hd, hfind, hp]

theorem claim_C3_witness :
    synthesize cartesian_product (synthesize cartesian_product [] Mex).1 Mex
        = ((synthesize cartesian_product [] Mex).1,
           (synthesize cartesian_product [] Mex).2) ∧
      cacheFind (Mex, cartesian_product.name)
          (synthesize cartesian_product [] Mex).1
        = some ((synthesize cartesian_product [] Mex).2) := by
  obtain ⟨h1, h2⟩ := claim_C3_cache_coherence cartesian_product [] Mex
  exact ⟨h1, h2 (by simp [descrOf, Mex])⟩

/-- Modelled from the spec (§4.1 step 3, §3): the result of invoking a bespoke
nested-construction factory — the derived category over the base whose
super-categories are the factory's extra super-categories joined with the
generically derived ones ("possibly augmented by a bespoke refinement"). -/
def nestedFactory (d : Descriptor) (C : Cat) (extras : List Cat) : Cat :=
  Cat.derived C d (removeDups (extras ++ (supersOf C).map (synth0 d)))

/-- Claim C4: bespoke override precedence.  When the base category provides a
bespoke nested-construction entry under the descriptor's slot name,
`synthesize` returns exactly the factory's result (the generic-only synthesis
of step 4 is not used for that pair). -/
theorem claim_C4_bespoke (d : Descriptor) (cache : Cache) (C : Cat)
    (extras : List Cat) (hc : WFCache d cache)
    (h : nestedLookup C d.categorySlotName = some extras) :
    (synthesize d cache C).2 = nestedFactory d C extras := by
  have hd : descrOf C = none := by
    cases C with
    | mk n sup nst => rfl
    | derived b d' s => simp [nestedLookup] at h
  rw [(synthesize_sound d cache C hc).1, synth0, if_neg (by simp [hd]), h,
    nestedFactory, synthList0_eq_map]

theorem claim_C4_witness :
    (synthesize cartesian_product [] Cex).2
      = nestedFactory cartesian_product Cex [Mex] := by
  apply claim_C4_bespoke cartesian_product [] Cex [Mex] (wfcache_nil _)
  simp [nestedLookup, Cex, cartesian_product]

/-- Claim C5, counterexample: the input `derived(Cex, d)` (itself produced by
the Synthesizer) has no bespoke entry, yet the category `synthesize` returns
for it — the idempotence check returns it unchanged — has super-categories
`[Mex]`, not the synthesized images of its super-categories. -/
theorem claim_C5_counterexample :
    nestedLookup ((synthesize cartesian_product [] Cex).2)
        cartesian_product.categorySlotName = none ∧
      supersOf ((synthesize cartesian_product []
            ((synthesize cartesian_product [] Cex).2)).2)
        ≠ removeDups
            ((supersOf ((synthesize cartesian_product [] Cex).2)).map
              (fun S => (synthesize cartesian_product [] S).2)) := by
  rw [synthesize_nil_Cex]
  constructor
  · rfl
  · have hfix : synthesize cartesian_product []
        (Cat.derived Cex cartesian_product [Mex])
        = ([], Cat.derived Cex cartesian_product [Mex]) := by
      rw [synthesize, if_pos (show descrOf (Cat.derived Cex cartesian_product
        [Mex]) = some cartesian_product from rfl)]
    rw [hfix]
    rw [show supersOf (Cat.derived Cex cartesian_product [Mex]) = [Mex]
      from rfl]
    rw [List.map_singleton, synthesize_nil_Mex]
    simp [removeDups, Mex]

/-- Claim C5 (amended): generic synthesis.  For a category that has no bespoke
entry for the descriptor's slot and is not itself already a derived category
of that descriptor, the derived category's super-categories are exactly the
`synthesize` images of the base's super-categories, in order, with duplicates
removed. -/
theorem claim_C5_generic (d : Descriptor) (cache : Cache) (C : Cat)
    (hc : WFCache d cache)
    (hnb : nestedLookup C d.categorySlotName = none)
    (hnd : descrOf C ≠ some d) :
    supersOf ((synthesize d cache C).2)
      = removeDups ((supersOf C).map (fun S => (synthesize d cache S).2)) := by
  have hEq : synth0 d C
      = Cat.derived C d (removeDups (synthList0 d (supersOf C))) := by
    rw [synth0, if_neg hnd, hnb]
  have hfun : (fun S => (synthesize d cache S).2) = synth0 d :=
    funext (fun S => (synthesize_sound d cache S hc).1)
  rw [(synthesize_sound d cache C hc).1, hEq, hfun, ← synthList0_eq_map]
  rfl

theorem claim_C5_witness :
    supersOf ((synthesize cartesian_product [] (Cat.mk 0 [Mex] [])).2)
      = removeDups ((supersOf (Cat.mk 0 [Mex] [])).map
          (fun S => (synthesize cartesian_product [] S).2)) := by
  apply claim_C5_generic cartesian_product [] (Cat.mk 0 [Mex] [])
    (wfcache_nil _)
  · simp [nestedLookup]
  · simp [descrOf]

/-- Modelled from the spec (§7): the error taxonomy of the registry core. -/
inductive Fault where
  | MalformedCategoryGraph
  | UnknownConstruction
  | EmptyFactorList
deriving DecidableEq, Repr

/-- An algebraic object: an opaque identity together with its category
(spec §4.3 precondition: "every element already has an associated Category"). -/
structure AObj where
  oid : Nat
  category : Cat

/-- Modelled from the spec (§3 "Concrete Derived Object"): the ordered factors
and the derived category computed for the join of the factors' categories. -/
structure DerivedObject where
  factors : List AObj
  category : Cat

/-- Modelled from the spec (§6, §9): registration of a Construction Descriptor
by name; a second registration under an existing name is a no-op, preserving
"same name ⇒ same descriptor". -/
def registerDescriptor (reg : List Descriptor) (d : Descriptor) :
    List Descriptor :=
  if reg.any (fun e => e.name = d.name) then reg else d :: reg

/-- Resolution of a construction name to its registered descriptor. -/
def findDescriptor (reg : List Descriptor) (n : String) : Option Descriptor :=
  reg.find? (fun e => e.name = n)

/-- At most one registered descriptor per construction name. -/
def NamesUnique (reg : List Descriptor) : Prop :=
  reg.Pairwise (fun a b => a.name ≠ b.name)

/-- Modelled from the spec (§4.3 Functor Facade): check the factor list is
non-empty, resolve the descriptor in the registry (an unregistered descriptor
is an `UnknownConstruction` fault, spec §7), compute the join of the factors'
categories with the externally provided `join`, synthesize the derived
category, and build the `DerivedObject`. -/
def applyFunctor (reg : List Descriptor) (join : List Cat → Cat)
    (d : Descriptor) (cache : Cache) (objs : List AObj) :
    Except Fault (Cache × DerivedObject) :=
  match objs with
  | [] => .error .EmptyFactorList
  | _ :: _ =>
    match findDescriptor reg d.name with
    | none => .error .UnknownConstruction
    | some d0 =>
      .ok ((synthesize d0 cache (join (objs.map AObj.category))).1,
        ⟨objs, (synthesize d0 cache (join (objs.map AObj.category))).2⟩)

/-- Claim C6: the Functor Facade, applied to a non-empty sequence of
categorized objects and a registered descriptor, returns a `DerivedObject`
whose `factors` are exactly the input sequence and whose `category` is
`synthesize` applied to the join of the objects' categories. -/
theorem claim_C6_facade (reg : List Descriptor) (join : List Cat → Cat)
    (d : Descriptor) (cache : Cache) (objs : List AObj)
    (hne : objs ≠ [])
    (hreg : findDescriptor reg d.name = some d) :
    applyFunctor reg join d cache objs
      = .ok ((synthesize d cache (join (objs.map AObj.category))).1,
          ⟨objs, (synthesize d cache (join (objs.map AObj.category))).2⟩) := by
  cases objs with
  | nil => exact absurd rfl hne
  | cons x xs => rw [applyFunctor, hreg]

theorem claim_C6_witness :
    applyFunctor [cartesian_product] (fun _ => Mex) cartesian_product []
        [⟨0, Mex⟩]
      = .ok ((synthesize cartesian_product [] Mex).1,
          ⟨[⟨0, Mex⟩], (synthesize cartesian_product [] Mex).2⟩) := by
  have h := claim_C6_facade [cartesian_product] (fun _ => Mex)
    cartesian_product [] [⟨0, Mex⟩] (by simp)
    (by simp [findDescriptor, cartesian_product])
  simpa using h

/-- Claim C7: descriptor uniqueness.  Registering a second descriptor with an
already-registered name leaves the registry unchanged (no second descriptor
identity is created), name-uniqueness of the registry is preserved, and
resolution — the descriptor identity the facade uses, whose name is the cache
key component — is the same for both equal names. -/
theorem claim_C7_registry (reg : List Descriptor) (d d' : Descriptor)
    (hu : NamesUnique reg) (hn : d'.name = d.name) :
    NamesUnique (registerDescriptor reg d) ∧
      registerDescriptor (registerDescriptor reg d) d'
        = registerDescriptor reg d ∧
      findDescriptor (registerDescriptor reg d) d'.name
        = findDescriptor (registerDescriptor reg d) d.name := by
  cases h : reg.any (fun e => e.name = d.name) with
  | true =>
      have hreg : registerDescriptor reg d = reg := by
        rw [registerDescriptor, if_pos h]
      refine ⟨by rw [hreg]; exact hu, ?_, by rw [hn]⟩
      rw [hreg, registerDescriptor, if_pos (show reg.any
        (fun e => e.name = d'.name) = true by simpa [hn] using h)]
  | false =>
      have hreg : registerDescriptor reg d = d :: reg := by
        rw [registerDescriptor, if_neg (by simp [h])]
      refine ⟨?_, ?_, by rw [hn]⟩
      · rw [hreg]
        refine List.Pairwise.cons ?_ hu
        intro e he
        have := (List.any_eq_false.mp h) e he
        simpa using fun hcontra => this (by simp [hcontra])
      · rw [hreg, registerDescriptor, if_pos (show (d :: reg).any
          (fun e => e.name = d'.name) = true by simp [hn])]

theorem claim_C7_witness :
    NamesUnique (registerDescriptor [] cartesian_product) ∧
      registerDescriptor (registerDescriptor [] cartesian_product)
          cartesian_product
        = registerDescriptor [] cartesian_product ∧
      findDescriptor (registerDescriptor [] cartesian_product)
          cartesian_product.name
        = findDescriptor (registerDescriptor [] cartesian_product)
            cartesian_product.name :=
  claim_C7_registry [] cartesian_product cartesian_product
    List.Pairwise.nil rfl

/-- Claim C9: the Facade raises `EmptyFactorList` exactly on the empty factor
list: the empty call fails with that fault immediately, and no non-empty call
ever produces it (the join is total, supplied by the collaborator). -/
theorem claim_C9_empty_factors (reg : List Descriptor) (join : List Cat → Cat)
    (d : Descriptor) (cache : Cache) (objs : List AObj) :
    applyFunctor reg join d cache [] = .error .EmptyFactorList ∧
      (objs ≠ [] →
        applyFunctor reg join d cache objs ≠ .error .EmptyFactorList) := by
  constructor
  · rw [applyFunctor]
  · intro hne
    cases objs with
    | nil => exact absurd rfl hne
    | cons x xs =>
        cases hfd : findDescriptor reg d.name <;>
          simp [applyFunctor, hfd]

theorem claim_C9_witness :
    applyFunctor [cartesian_product] (fun _ => Mex) cartesian_product []
        ([] : List AObj) = .error .EmptyFactorList ∧
      applyFunctor [cartesian_product] (fun _ => Mex) cartesian_product []
          [⟨0, Mex⟩] ≠ .error .EmptyFactorList := by
  obtain ⟨h1, h2⟩ := claim_C9_empty_factors [cartesian_product]
    (fun _ => Mex) cartesian_product [] [⟨0, Mex⟩]
  exact ⟨h1, h2 (by simp)⟩

/-- Embedded from the source: the base category a derived construction
category was built over (`base_category()` of
`CovariantConstructionCategory`; see the `TESTS` block at src lines 113–122). -/
def base_category : Cat → Cat
  | .derived b _ _ => b
  | C => C

/-- Embedded from the source (`CartesianProductsCategory.base_ring`, src lines
153–162): "The base ring of a cartesian product is the base ring of the
underlying category" — `return self.base_category().base_ring()`.  The base
ring assignment of plain base categories is the external collaborator
`ringOf`; base rings are modelled as opaque numbers. -/
def base_ring (ringOf : Cat → Option Nat) : Cat → Option Nat
  | .derived b _ _ => base_ring ringOf b
  | .mk n sup nst => ringOf (.mk n sup nst)

/-- Claim C10: a derived `CartesianProducts` category has the same base ring
as its base category: `base_ring` delegates to the base category unchanged,
both for an explicitly given derived category and for the Synthesizer's
output, which keeps the base ring of the category it was applied to. -/
theorem claim_C10_base_ring (ringOf : Cat → Option Nat) (cache : Cache)
    (B : Cat) (s : List Cat)
    (hc : WFCache cartesian_product cache)
    (hr : (base_ring ringOf B).isSome) :
    base_ring ringOf (Cat.derived B cartesian_product s)
        = base_ring ringOf (base_category
            (Cat.derived B cartesian_product s)) ∧
      base_ring ringOf ((synthesize cartesian_product cache B).2)
        = base_ring ringOf B ∧
      (base_ring ringOf ((synthesize cartesian_product cache B).2)).isSome := by
  have h2 : base_ring ringOf ((synthesize cartesian_product cache B).2)
      = base_ring ringOf B := by
    rw [(synthesize_sound _ _ _ hc).1]
    by_cases hd : descrOf B = some cartesian_product
    · rw [synth0_of_descr hd]
    · obtain ⟨s', hs⟩ := synth0_shape hd
      rw [hs, base_ring]
  exact ⟨rfl, h2, by rw [h2]; exact hr⟩

theorem claim_C10_witness :
    base_ring (fun _ => some 7) (Cat.derived Mex cartesian_product [])
        = base_ring (fun _ => some 7) (base_category
            (Cat.derived Mex cartesian_product [])) ∧
      base_ring (fun _ => some 7)
          ((synthesize cartesian_product [] Mex).2)
        = base_ring (fun _ => some 7) Mex ∧
      (base_ring (fun _ => some 7)
          ((synthesize cartesian_product [] Mex).2)).isSome :=
  claim_C10_base_ring (fun _ => some 7) [] Mex [] (wfcache_nil _)
    (by rw [show base_ring (fun _ => some 7) Mex = some 7 from rfl]; rfl)

/-- Modelled from the spec (§4.1 error condition, §7): the super-category
relation presented as an adjacency list over opaque identities, a
representation in which a cyclic relation is expressible (the inductive `Cat`
cannot contain one by construction). -/
abbrev CatGraph : Type := List (Nat × List Nat)

/-- The immediate super-category identities of a node. -/
def supersG (g : CatGraph) (n : Nat) : List Nat :=
  match g.find? (fun p => p.1 = n) with
  | some p => p.2
  | none => []

/-- The synthesis tree produced by the depth-guarded synthesizer. -/
inductive GTree where
  | node (n : Nat) (children : List GTree)

mutual

/-- Modelled from the spec (§4.1 error condition, §7 `MalformedCategoryGraph`):
the recursion skeleton of the Synthesizer over the identity graph, guarded by
a recursion-depth budget.  Exhausting the budget signals the
`MalformedCategoryGraph` fault, which propagates synchronously to the caller
(no retry). -/
def synthG (g : CatGraph) : Nat → Nat → Except Fault GTree
  | 0, _ => .error .MalformedCategoryGraph
  | fuel + 1, n =>
    match synthGList g fuel (supersG g n) with
    | .error e => .error e
    | .ok ts => .ok (.node n ts)
termination_by fuel _ => (fuel, 0)

/-- Depth-guarded synthesis of each node of a list, propagating the first
fault. -/
def synthGList (g : CatGraph) : Nat → List Nat → Except Fault (List GTree)
  | _, [] => .ok []
  | fuel, m :: ms =>
    match synthG g fuel m with
    | .error e => .error e
    | .ok t =>
      match synthGList g fuel ms with
      | .error e => .error e
      | .ok ts => .ok (t :: ts)
termination_by fuel l => (fuel, l.length + 1)

end

/-- Paths `PathG g n p e`: from node `n`, following super-category edges
through the successive nodes of `p`, one ends at node `e`. -/
inductive PathG (g : CatGraph) : Nat → List Nat → Nat → Prop where
  | nil (n : Nat) : PathG g n [] n
  | cons {n m e : Nat} {p : List Nat} :
      m ∈ supersG g n → PathG g m p e → PathG g n (m :: p) e

theorem PathG_append {g : CatGraph} {n m e : Nat} {p q : List Nat}
    (h1 : PathG g n p m) (h2 : PathG g m q e) : PathG g n (p ++ q) e := by
  induction h1 with
  | nil => simpa using h2
  | cons hm _ ih => exact PathG.cons hm (ih h2)

theorem PathG_split {g : CatGraph} {n e : Nat} :
    ∀ {p q : List Nat}, PathG g n (p ++ q) e →
      ∃ m, PathG g n p m ∧ PathG g m q e := by
  intro p
  induction p generalizing n with
  | nil => intro q h; exact ⟨n, PathG.nil n, by simpa using h⟩
  | cons x xs ih =>
      intro q h
      cases h with
      | cons hm hp =>
          obtain ⟨m, h1, h2⟩ := ih hp
          exact ⟨m, PathG.cons hm h1, h2⟩

/-- The spec's validity precondition (§3 Category invariant): no node
reachable from `n` lies on a non-trivial super-category cycle. -/
def AcyclicFrom (g : CatGraph) (n : Nat) : Prop :=
  ∀ p m c, PathG g n p m → PathG g m c m → c = []

/-- Every identity that can appear as a super-category in `g`. -/
def nodesG : CatGraph → List Nat
  | [] => []
  | p :: rest => p.2 ++ nodesG rest

theorem mem_nodesG_of_mem :
    ∀ {g : CatGraph} {p : Nat × List Nat} {x : Nat},
      p ∈ g → x ∈ p.2 → x ∈ nodesG g := by
  intro g
  induction g with
  | nil => intro p x hp _; simp at hp
  | cons q rest ih =>
      intro p x hp hx
      rw [nodesG]
      rcases List.mem_cons.mp hp with rfl | hp2
      · exact List.mem_append.mpr (Or.inl hx)
      · exact List.mem_append.mpr (Or.inr (ih hp2 hx))

theorem mem_nodesG {g : CatGraph} {n m : Nat} (h : m ∈ supersG g n) :
    m ∈ nodesG g := by
  rw [supersG] at h
  cases hf : g.find? (fun p => p.1 = n) with
  | none => rw [hf] at h; simp at h
  | some p =>
      rw [hf] at h
      exact mem_nodesG_of_mem (List.mem_of_find?_eq_some hf) h

theorem path_subset {g : CatGraph} {n e : Nat} {p : List Nat}
    (h : PathG g n p e) : ∀ x ∈ p, x ∈ nodesG g := by
  induction h with
  | nil => simp
  | cons hm _ ih =>
      intro x hx
      rcases List.mem_cons.mp hx with rfl | hx2
      · exact mem_nodesG hm
      · exact ih x hx2

theorem not_nodup_split {α : Type} [DecidableEq α] :
    ∀ {l : List α}, ¬ l.Nodup →
      ∃ (a : α) (l1 l2 l3 : List α), l = l1 ++ (a :: (l2 ++ (a :: l3))) := by
  intro l
  induction l with
  | nil => intro h; exact absurd List.nodup_nil h
  | cons x xs ih =>
      intro h
      rw [List.nodup_cons] at h
      push_neg at h
      by_cases hx : x ∈ xs
      · obtain ⟨l2, l3, hsplit⟩ := List.append_of_mem hx
        exact ⟨x, [], l2, l3, by rw [hsplit]; rfl⟩
      · obtain ⟨a, l1, l2, l3, hs⟩ := ih (h hx)
        exact ⟨a, x :: l1, l2, l3, by rw [hs]; rfl⟩

theorem path_nodup {g : CatGraph} {n e : Nat} {p : List Nat}
    (hac : AcyclicFrom g n) (h : PathG g n p e) : p.Nodup := by
  by_contra hnd
  obtain ⟨a, l1, l2, l3, hsplit⟩ := not_nodup_split hnd
  subst hsplit
  obtain ⟨m1, h1, h2⟩ := @PathG_split g n e l1 (a :: (l2 ++ (a :: l3))) h
  cases h2 with
  | cons ham hp2 =>
      obtain ⟨m2, h3, h4⟩ := @PathG_split g a e l2 (a :: l3) hp2
      cases h4 with
      | cons ham2 _ =>
          have hcyc : PathG g a (l2 ++ [a]) a :=
            PathG_append h3 (PathG.cons ham2 (PathG.nil a))
          have hna : PathG g n (l1 ++ [a]) a :=
            PathG_append h1 (PathG.cons ham (PathG.nil a))
          have := hac (l1 ++ [a]) a (l2 ++ [a]) hna hcyc
          simp at this

theorem path_length_le {g : CatGraph} {n e : Nat} {p : List Nat}
    (hac : AcyclicFrom g n) (h : PathG g n p e) :
    p.length ≤ (nodesG g).length :=
  (List.subperm_of_subset (path_nodup hac h)
    (fun _ hx => path_subset h _ hx)).length_le

theorem synthGList_ok {g : CatGraph} {fuel : Nat} :
    ∀ (l : List Nat), (∀ m ∈ l, ∃ t, synthG g fuel m = .ok t) →
      ∃ ts, synthGList g fuel l = .ok ts := by
  intro l
  induction l with
  | nil => intro _; exact ⟨[], by rw [synthGList]⟩
  | cons m ms ih =>
      intro h
      obtain ⟨t, ht⟩ := h m (List.mem_cons_self m ms)
      obtain ⟨ts, hts⟩ := ih (fun x hx => h x (List.mem_cons_of_mem m hx))
      exact ⟨t :: ts, by rw [synthGList, ht, hts]⟩

theorem synthG_ok_of_bound (g : CatGraph) :
    ∀ (fuel n : Nat), (∀ p e, PathG g n p e → p.length < fuel) →
      ∃ t, synthG g fuel n = .ok t := by
  intro fuel
  induction fuel with
  | zero =>
      intro n h
      exact absurd (h [] n (PathG.nil n)) (by simp)
  | succ fuel ih =>
      intro n h
      have hch : ∀ m ∈ supersG g n, ∃ t, synthG g fuel m = .ok t := by
        intro m hm
        refine ih m ?_
        intro p e hp
        have h2 := h (m :: p) e (PathG.cons hm hp)
        simp only [List.length_cons] at h2
        omega
      obtain ⟨ts, hts⟩ := synthGList_ok (supersG g n) hch
      exact ⟨GTree.node n ts, by rw [synthG, hts]⟩

theorem synthGList_each {g : CatGraph} {fuel : Nat} :
    ∀ {l : List Nat} {ts : List GTree}, synthGList g fuel l = .ok ts →
      ∀ m ∈ l, ∃ t, synthG g fuel m = .ok t := by
  intro l
  induction l with
  | nil => intro ts _ m hm; simp at hm
  | cons x xs ih =>
      intro ts h m hm
      rw [synthGList] at h
      cases hx : synthG g fuel x with
      | error e => rw [hx] at h; simp at h
      | ok t =>
          rw [hx] at h
          cases hxs : synthGList g fuel xs with
          | error e => rw [hxs] at h; simp at h
          | ok ts2 =>
              rcases List.mem_cons.mp hm with rfl | hm2
              · exact ⟨t, hx⟩
              · exact ih hxs m hm2

theorem synthG_ok_path_bound (g : CatGraph) :
    ∀ (fuel n : Nat) (t : GTree), synthG g fuel n = .ok t →
      ∀ p e, PathG g n p e → p.length < fuel := by
  intro fuel
  induction fuel with
  | zero =>
      intro n t h
      rw [synthG] at h
      simp at h
  | succ fuel ih =>
      intro n t h p e hp
      cases hp with
      | nil => simp
      | cons hm hp2 =>
          rw [synthG] at h
          cases hls : synthGList g fuel (supersG g n) with
          | error e2 => rw [hls] at h; simp at h
          | ok ts =>
              obtain ⟨t2, ht2⟩ := synthGList_each hls _ hm
              have := ih _ t2 ht2 _ e hp2
              simp only [List.length_cons]
              omega

theorem synthG_shape (g : CatGraph) :
    ∀ (fuel n : Nat), (∃ t, synthG g fuel n = .ok t) ∨
      synthG g fuel n = .error .MalformedCategoryGraph := by
  intro fuel
  induction fuel with
  | zero => intro n; right; rw [synthG]
  | succ fuel ih =>
      intro n
      have hlist : ∀ l : List Nat,
          (∃ ts, synthGList g fuel l = .ok ts) ∨
            synthGList g fuel l = .error .MalformedCategoryGraph := by
        intro l
        induction l with
        | nil => left; exact ⟨[], by rw [synthGList]⟩
        | cons x xs ihl =>
            rcases ih x with ⟨t, ht⟩ | ht
            · rcases ihl with ⟨ts, hts⟩ | hts
              · left; exact ⟨t :: ts, by rw [synthGList, ht, hts]⟩
              · right; rw [synthGList, ht, hts]
            · right; rw [synthGList, ht]
      rcases hlist (supersG g n) with ⟨ts, hts⟩ | hts
      · left; exact ⟨GTree.node n ts, by rw [synthG, hts]⟩
      · right; rw [synthG, hts]

/-- Concatenation of `k` copies of a cycle, used to pump paths to arbitrary
length. -/
def iterPath (c : List Nat) : Nat → List Nat
  | 0 => []
  | k + 1 => c ++ iterPath c k

theorem iterPath_cycle {g : CatGraph} {m : Nat} {c : List Nat}
    (hc : PathG g m c m) : ∀ k, PathG g m (iterPath c k) m := by
  intro k
  induction k with
  | zero => exact PathG.nil m
  | succ k ihk => exact PathG_append hc ihk

theorem iterPath_length (c : List Nat) :
    ∀ k, (iterPath c k).length = k * c.length := by
  intro k
  induction k with
  | zero => simp [iterPath]
  | succ k ihk =>
      rw [iterPath, List.length_append, ihk, Nat.succ_mul]
      omega

/-- Claim C8: the depth-guarded synthesizer terminates successfully on every
input whose reachable super-category relation is acyclic (a budget of one more
than the number of graph nodes suffices), while an input with a reachable
non-trivial cycle makes it signal the explicit `MalformedCategoryGraph` fault
— for every budget — rather than recurse unboundedly; the fault propagates
synchronously to the caller. -/
theorem claim_C8_termination (g : CatGraph) (n : Nat) :
    (AcyclicFrom g n →
      ∃ t, synthG g ((nodesG g).length + 1) n = .ok t) ∧
    (∀ p m c, PathG g n p m → PathG g m c m → c ≠ [] →
      ∀ fuel, synthG g fuel n = .error .MalformedCategoryGraph) := by
  constructor
  · intro hac
    apply synthG_ok_of_bound
    intro p e hp
    have := path_length_le hac hp
    omega
  · intro p m c hpm hcyc hne fuel
    rcases synthG_shape g fuel n with ⟨t, ht⟩ | ht
    · have hbound := synthG_ok_path_bound g fuel n t ht
      have hlong : PathG g n (p ++ iterPath c fuel) m :=
        PathG_append hpm (iterPath_cycle hcyc fuel)
      have hlen := hbound _ m hlong
      rw [List.length_append, iterPath_length] at hlen
      have hc1 : 1 ≤ c.length := by
        cases c with
        | nil => exact absurd rfl hne
        | cons _ _ => simp
      have : fuel ≤ fuel * c.length := Nat.le_mul_of_pos_right fuel hc1
      omega
    · exact ht

/-- Witness for C8: the one-edge acyclic graph `0 → 1` synthesizes
successfully, and the self-loop graph `0 → 0` faults at every budget. -/
theorem claim_C8_witness :
    (∃ t, synthG [(0, [1])] ((nodesG [(0, [1])]).length + 1) 0 = .ok t) ∧
      synthG [(0, [0])] 5 0 = .error .MalformedCategoryGraph := by
  constructor
  · apply (claim_C8_termination [(0, [1])] 0).1
    intro p m c hpm hcyc
    cases hcyc with
    | nil => rfl
    | cons hm1 hrest =>
        rename_i m1 rest
        by_cases hm0 : m = 0
        · subst hm0
          rw [show supersG [(0, [1])] 0 = [1] from rfl] at hm1
          have hm1' : m1 = 1 := by simpa using hm1
          subst hm1'
          cases hrest with
          | cons hx _ =>
              rw [show supersG [(0, [1])] 1 = [] from rfl] at hx
              simp at hx
        · have hsm : supersG [(0, [1])] m = [] := by
            rw [supersG]
            cases hf : List.find? (fun p => p.1 = m)
                [((0 : Nat), [(1 : Nat)])] with
            | none => rfl
            | some q =>
                have hq := List.find?_some hf
                have hqm := List.mem_of_find?_eq_some hf
                simp at hqm
                subst hqm
                simp at hq
                exact absurd hq.symm hm0
          rw [hsm] at hm1
          simp at hm1
  · refine (claim_C8_termination [(0, [0])] 0).2 [] 0 [0] (PathG.nil 0)
      ?_ (by simp) 5
    exact PathG.cons
      (show (0 : Nat) ∈ supersG [(0, [0])] 0 by
        rw [show supersG [(0, [0])] 0 = [0] from rfl]; simp)
      (PathG.nil 0)
